import Mathlib

/-!
Verification of the timer library (`src/lib.rs`): a delayed-callback
scheduler built from a binary heap of scheduled items, a mutex-guarded
wait channel, a scheduler run-loop and an intake relay thread.

Shallow embedding conventions:
* `DateTime<UTC>` timestamps are `Int` (nanoseconds since an epoch; only
  their total order and subtraction matter).
* `chrono::Duration` values are `Int` nanoseconds.
* A callback `Box<FnMut() + Send>` is an opaque payload of type `α`
  (for the panic analysis, `α := Bool` with `true` = the callback panics).
* `std::collections::BinaryHeap<Schedule>` is modelled as a list together
  with `Heap.peek` / `Heap.pop` returning a maximal element under the
  `Ord for Schedule` implementation (a max-heap's contract); `push` is cons.
* Clock readings (`UTC::now()`) form a sequence `clock : Nat → Int`; each
  iteration of the inner execute loop consumes one reading.
-/

/-- Rust's `Ord::cmp` on a totally ordered scalar (`DateTime<UTC>` / `i64`):
`Less` / `Equal` / `Greater` by `<` / `=` / `>`. -/
def dateCmp (a b : Int) : Ordering :=
  if a < b then Ordering.lt else if a = b then Ordering.eq else Ordering.gt

/-- `struct Schedule { date: DateTime<UTC>, cb: Box<FnMut() + Send> }`. -/
structure Schedule (α : Type) where
  date : Int
  cb : α
deriving Repr, DecidableEq

/-- `impl Ord for Schedule`: `self.date.cmp(&other.date).reverse()`. -/
def Schedule.cmp {α : Type} (a b : Schedule α) : Ordering :=
  (dateCmp a.date b.date).swap

/-- `impl PartialOrd for Schedule`:
`self.date.partial_cmp(&other.date).map(|ord| ord.reverse())`; on
`DateTime<UTC>` the inner comparison is total, i.e. always `Some`. -/
def Schedule.partCmp {α : Type} (a b : Schedule α) : Option Ordering :=
  (some (dateCmp a.date b.date)).map Ordering.swap

/-- `impl PartialEq for Schedule`: `self.date.eq(&other.date)`. -/
def Schedule.beq {α : Type} (a b : Schedule α) : Bool :=
  a.date == b.date

/-- `enum Op { Schedule(Schedule), Stop }`. -/
inductive Op (α : Type) where
  | Schedule (sched : Schedule α)
  | Stop
deriving Repr, DecidableEq

/-! ## The binary heap

`BinaryHeap` is a max-heap over `Ord`: `peek` returns a greatest element,
`pop` removes and returns it, `push` inserts.  Since `Schedule`'s `Ord`
reverses the date comparison, the greatest element is one with minimal
`date`.  We model the heap contents as a list; `peek`/`pop` scan for a
maximal element under `Schedule.cmp`. -/

namespace Heap

/-- `BinaryHeap::push`: inserts the item (position irrelevant to the
peek/pop contract). -/
def push {α : Type} (s : Schedule α) (h : List (Schedule α)) : List (Schedule α) :=
  s :: h

/-- `BinaryHeap::peek`: `None` on the empty heap, otherwise a maximal
element under `Schedule.cmp` (ties resolved towards the front). -/
def peek {α : Type} : List (Schedule α) → Option (Schedule α)
  | [] => none
  | s :: rest =>
    match peek rest with
    | none => some s
    | some m => if Schedule.cmp s m = Ordering.lt then some m else some s

/-- `BinaryHeap::pop`: `None` on the empty heap, otherwise removes and
returns the element `peek` designates, along with the remaining heap. -/
def pop {α : Type} : List (Schedule α) → Option (Schedule α × List (Schedule α))
  | [] => none
  | s :: rest =>
    match pop rest with
    | none => some (s, [])
    | some (m, rest') =>
      if Schedule.cmp s m = Ordering.lt then some (m, s :: rest') else some (s, rest)

end Heap

/-! ### Basic heap lemmas -/

theorem dateCmp_swap_eq_lt {a b : Int} :
    (dateCmp a b).swap = Ordering.lt ↔ b < a := by
  unfold dateCmp
  rcases lt_trichotomy a b with h | h | h
  · simp [h, Ordering.swap]
    omega
  · simp [h, Ordering.swap, lt_irrefl]
  · rw [if_neg (by omega), if_neg (by omega)]
    simp [Ordering.swap]
    omega

theorem Schedule.cmp_eq_lt {α : Type} {a b : Schedule α} :
    Schedule.cmp a b = Ordering.lt ↔ b.date < a.date := by
  unfold Schedule.cmp
  exact dateCmp_swap_eq_lt

theorem Heap.peek_isSome_iff {α : Type} (h : List (Schedule α)) :
    (Heap.peek h).isSome ↔ h ≠ [] := by
  cases h with
  | nil => simp [Heap.peek]
  | cons s rest =>
    simp only [Heap.peek]
    cases Heap.peek rest with
    | none => simp
    | some m =>
      by_cases hc : Schedule.cmp s m = Ordering.lt <;> simp [hc]

theorem Heap.peek_mem {α : Type} {h : List (Schedule α)} {m : Schedule α}
    (hp : Heap.peek h = some m) : m ∈ h := by
  induction h with
  | nil => simp [Heap.peek] at hp
  | cons s rest ih =>
    simp only [Heap.peek] at hp
    cases hrest : Heap.peek rest with
    | none =>
      simp only [hrest] at hp
      simp at hp
      simp [hp]
    | some m' =>
      simp only [hrest] at hp
      by_cases hc : Schedule.cmp s m' = Ordering.lt
      · rw [if_pos hc] at hp
        simp at hp
        subst hp
        exact List.mem_cons_of_mem _ (ih hrest)
      · rw [if_neg hc] at hp
        simp at hp
        simp [hp]

/-- The element `peek` returns has minimal date among the heap's items. -/
theorem Heap.peek_min {α : Type} :
    ∀ {h : List (Schedule α)} {m : Schedule α},
      Heap.peek h = some m → ∀ t ∈ h, m.date ≤ t.date := by
  intro h
  induction h with
  | nil => intro m hp; simp [Heap.peek] at hp
  | cons s rest ih =>
    intro m hp t ht
    simp only [Heap.peek] at hp
    cases hrest : Heap.peek rest with
    | none =>
      simp only [hrest] at hp
      have hm : s = m := by simpa using hp
      have hrnil : rest = [] := by
        by_contra hne
        have h1 := (Heap.peek_isSome_iff rest).mpr hne
        rw [hrest] at h1
        simp at h1
      subst hm
      rcases List.mem_cons.mp ht with h1 | h1
      · simp [h1]
      · rw [hrnil] at h1
        simp at h1
    | some m' =>
      simp only [hrest] at hp
      by_cases hc : Schedule.cmp s m' = Ordering.lt
      · rw [if_pos hc] at hp
        have hm : m' = m := by simpa using hp
        subst hm
        have hms : m'.date < s.date := Schedule.cmp_eq_lt.mp hc
        rcases List.mem_cons.mp ht with h1 | h1
        · rw [h1]
          exact le_of_lt hms
        · exact ih hrest t h1
      · rw [if_neg hc] at hp
        have hm : s = m := by simpa using hp
        subst hm
        have hsm : s.date ≤ m'.date := by
          have hnm : ¬ m'.date < s.date := fun hlt => hc (Schedule.cmp_eq_lt.mpr hlt)
          omega
        rcases List.mem_cons.mp ht with h1 | h1
        · rw [h1]
        · exact le_trans hsm (ih hrest t h1)

/-- `pop` and `peek` agree: both are `none`, or `pop` removes exactly the
element `peek` designates. -/
theorem Heap.pop_peek {α : Type} (h : List (Schedule α)) :
    (Heap.peek h = none ∧ Heap.pop h = none) ∨
    (∃ m r, Heap.peek h = some m ∧ Heap.pop h = some (m, r)) := by
  induction h with
  | nil => exact Or.inl ⟨rfl, rfl⟩
  | cons s rest ih =>
    rcases ih with ⟨hpk, hpp⟩ | ⟨m, r, hpk, hpp⟩
    · refine Or.inr ⟨s, [], ?_, ?_⟩
      · simp only [Heap.peek, hpk]
      · simp only [Heap.pop, hpp]
    · by_cases hc : Schedule.cmp s m = Ordering.lt
      · refine Or.inr ⟨m, s :: r, ?_, ?_⟩
        · simp only [Heap.peek, hpk]
          rw [if_pos hc]
        · simp only [Heap.pop, hpp]
          rw [if_pos hc]
      · refine Or.inr ⟨s, rest, ?_, ?_⟩
        · simp only [Heap.peek, hpk]
          rw [if_neg hc]
        · simp only [Heap.pop, hpp]
          rw [if_neg hc]

/-- C1 helper: pop yields the same element as peek. -/
theorem Heap.pop_fst_eq_peek {α : Type} {h : List (Schedule α)} {m : Schedule α}
    {rest : List (Schedule α)} (hp : Heap.pop h = some (m, rest)) :
    Heap.peek h = some m := by
  rcases Heap.pop_peek h with ⟨_, hpp⟩ | ⟨m', r', hpk, hpp⟩
  · rw [hp] at hpp
    simp at hpp
  · rw [hp] at hpp
    simp at hpp
    rw [hpk, hpp.1]

/-- Claim C1 witness data and the claim itself below need: peek of a
nonempty heap is some. -/
theorem Heap.peek_of_ne_nil {α : Type} {h : List (Schedule α)} (hne : h ≠ []) :
    ∃ m, Heap.peek h = some m := by
  have := (Heap.peek_isSome_iff h).mpr hne
  cases hpk : Heap.peek h with
  | none => rw [hpk] at this; simp at this
  | some m => exact ⟨m, rfl⟩

/-- **C1**: the queue's comparisons (`cmp`, `partial_cmp`, `eq`) depend only
on the `date` field — replacing either callable leaves every comparison
result unchanged — and `peek` / `pop` of any heap state return an item whose
`date` is minimal among all items currently in the heap (`pop` returning the
very item `peek` designates). -/
theorem C1_queue_min_and_cmp_ignores_cb {α : Type}
    (d₁ d₂ : Int) (c₁ c₂ c₁' c₂' : α) (h : List (Schedule α)) :
    (Schedule.cmp ⟨d₁, c₁⟩ ⟨d₂, c₂⟩ = Schedule.cmp ⟨d₁, c₁'⟩ ⟨d₂, c₂'⟩ ∧
     Schedule.partCmp ⟨d₁, c₁⟩ ⟨d₂, c₂⟩ = Schedule.partCmp ⟨d₁, c₁'⟩ ⟨d₂, c₂'⟩ ∧
     Schedule.beq ⟨d₁, c₁⟩ ⟨d₂, c₂⟩ = Schedule.beq ⟨d₁, c₁'⟩ ⟨d₂, c₂'⟩) ∧
    (∀ m, Heap.peek h = some m → m ∈ h ∧ ∀ t ∈ h, m.date ≤ t.date) ∧
    (∀ m rest, Heap.pop h = some (m, rest) →
      Heap.peek h = some m ∧ ∀ t ∈ h, m.date ≤ t.date) := by
  refine ⟨⟨rfl, rfl, rfl⟩, ?_, ?_⟩
  · intro m hp
    exact ⟨Heap.peek_mem hp, Heap.peek_min hp⟩
  · intro m rest hp
    have hpk := Heap.pop_fst_eq_peek hp
    exact ⟨hpk, Heap.peek_min hpk⟩

/-- C1 at a concrete heap: peeking `[{date 5}, {date 3}]` yields the
date-3 item, which is minimal. -/
theorem C1_witness :
    Heap.peek [(⟨5, 0⟩ : Schedule Nat), ⟨3, 1⟩] = some ⟨3, 1⟩ ∧
    (⟨3, 1⟩ : Schedule Nat).date ≤ (⟨5, 0⟩ : Schedule Nat).date := by
  have h := (C1_queue_min_and_cmp_ignores_cb (α := Nat) 0 0 0 0 0 0
    [⟨5, 0⟩, ⟨3, 1⟩]).2.1 ⟨3, 1⟩ (by decide)
  exact ⟨by decide, h.2 ⟨5, 0⟩ (by decide)⟩

/-! ## The execute phase of `Scheduler::run`

The inner loop (`// Pop all the callbacks that are ready.`): each iteration
reads `now = UTC::now()` (one clock reading), peeks the heap, and either
breaks with no deadline (empty heap), breaks recording the remaining delay
(`sched.date > now`), or pops and invokes the callback and repeats.  Popped
items are recorded in invocation order.  The recursion is fuelled by the
heap size; every pop removes exactly one element, so `fuel = heap.length`
never runs out (`executeGo_heap_le_fuel` facts below). -/

structure ExecResult (α : Type) where
  executed : List (Schedule α)
  heap : List (Schedule α)
  delay : Option Int
deriving Repr, DecidableEq

def executeGo {α : Type} (clock : Nat → Int) : Nat → Nat → List (Schedule α) → ExecResult α
  | _, 0, heap => ⟨[], heap, none⟩
  | i, fuel + 1, heap =>
    match Heap.peek heap with
    | none => ⟨[], heap, none⟩
    | some sched =>
      if clock i < sched.date then ⟨[], heap, some (sched.date - clock i)⟩
      else
        match Heap.pop heap with
        | none => ⟨[], heap, none⟩
        | some (m, rest) =>
          let r := executeGo clock (i + 1) fuel rest
          ⟨m :: r.executed, r.heap, r.delay⟩

/-- The execute phase starting from clock reading index `i`. -/
def execute {α : Type} (clock : Nat → Int) (i : Nat) (heap : List (Schedule α)) :
    ExecResult α :=
  executeGo clock i heap.length heap

theorem Heap.pop_none_iff {α : Type} (h : List (Schedule α)) :
    Heap.pop h = none ↔ h = [] := by
  rcases Heap.pop_peek h with ⟨hpk, hpp⟩ | ⟨m, r, hpk, hpp⟩
  · rw [hpp]
    have h1 := Heap.peek_isSome_iff h
    rw [hpk] at h1
    simp at h1
    simp [h1]
  · rw [hpp]
    have h1 := Heap.peek_isSome_iff h
    rw [hpk] at h1
    simp at h1
    simp [h1]

theorem Heap.pop_length {α : Type} :
    ∀ {h : List (Schedule α)} {m : Schedule α} {rest : List (Schedule α)},
      Heap.pop h = some (m, rest) → rest.length + 1 = h.length := by
  intro h
  induction h with
  | nil => intro m rest hp; simp [Heap.pop] at hp
  | cons s r ih =>
    intro m rest hp
    simp only [Heap.pop] at hp
    cases hr : Heap.pop r with
    | none =>
      simp only [hr] at hp
      have hrnil : r = [] := (Heap.pop_none_iff r).mp hr
      simp at hp
      rw [hp.2, hrnil]
      simp
    | some p =>
      obtain ⟨m', rest'⟩ := p
      simp only [hr] at hp
      have ihl := ih hr
      by_cases hc : Schedule.cmp s m' = Ordering.lt
      · rw [if_pos hc] at hp
        simp at hp
        rw [← hp.2]
        simp
        omega
      · rw [if_neg hc] at hp
        simp at hp
        rw [← hp.2]
        simp

theorem Heap.pop_subset {α : Type} :
    ∀ {h : List (Schedule α)} {m : Schedule α} {rest : List (Schedule α)},
      Heap.pop h = some (m, rest) → ∀ t ∈ rest, t ∈ h := by
  intro h
  induction h with
  | nil => intro m rest hp; simp [Heap.pop] at hp
  | cons s r ih =>
    intro m rest hp t ht
    simp only [Heap.pop] at hp
    cases hr : Heap.pop r with
    | none =>
      simp only [hr] at hp
      simp at hp
      rw [hp.2] at ht
      simp at ht
    | some p =>
      obtain ⟨m', rest'⟩ := p
      simp only [hr] at hp
      by_cases hc : Schedule.cmp s m' = Ordering.lt
      · rw [if_pos hc] at hp
        simp at hp
        rw [← hp.2] at ht
        rcases List.mem_cons.mp ht with h1 | h1
        · simp [h1]
        · exact List.mem_cons_of_mem _ (ih hr t h1)
      · rw [if_neg hc] at hp
        simp at hp
        rw [← hp.2] at ht
        exact List.mem_cons_of_mem _ ht

/-! ### Unfolding equations for `executeGo` -/

theorem executeGo_zero {α : Type} (clock : Nat → Int) (i : Nat)
    (heap : List (Schedule α)) : executeGo clock i 0 heap = ⟨[], heap, none⟩ := rfl

theorem executeGo_empty {α : Type} (clock : Nat → Int) (i fuel : Nat)
    {heap : List (Schedule α)} (hpk : Heap.peek heap = none) :
    executeGo clock i (fuel + 1) heap = ⟨[], heap, none⟩ := by
  simp only [executeGo, hpk]

theorem executeGo_wait {α : Type} (clock : Nat → Int) (i fuel : Nat)
    {heap : List (Schedule α)} {sched : Schedule α}
    (hpk : Heap.peek heap = some sched) (hlt : clock i < sched.date) :
    executeGo clock i (fuel + 1) heap = ⟨[], heap, some (sched.date - clock i)⟩ := by
  simp only [executeGo, hpk]
  rw [if_pos hlt]

theorem executeGo_pop {α : Type} (clock : Nat → Int) (i fuel : Nat)
    {heap : List (Schedule α)} {sched m : Schedule α} {rest : List (Schedule α)}
    (hpk : Heap.peek heap = some sched) (hlt : ¬ clock i < sched.date)
    (hpop : Heap.pop heap = some (m, rest)) :
    executeGo clock i (fuel + 1) heap =
      ⟨m :: (executeGo clock (i + 1) fuel rest).executed,
       (executeGo clock (i + 1) fuel rest).heap,
       (executeGo clock (i + 1) fuel rest).delay⟩ := by
  simp only [executeGo, hpk, hpop]
  rw [if_neg hlt]

/-- The behaviour of the execute phase, parametrised by fuel: the loop ends
with no deadline iff the remaining heap is empty; a recorded deadline is the
distance from the breaking clock reading to the (future) date of the
minimal remaining item; every invoked callback was due at the clock reading
of its own iteration; executed and remaining items come from the initial
heap; and callbacks run in nondecreasing date order. -/
theorem executeGo_spec {α : Type} (clock : Nat → Int) :
    ∀ (fuel i : Nat) (heap : List (Schedule α)), heap.length ≤ fuel →
      ((executeGo clock i fuel heap).delay = none ↔
        (executeGo clock i fuel heap).heap = []) ∧
      (∀ dl, (executeGo clock i fuel heap).delay = some dl →
        ∃ m, Heap.peek (executeGo clock i fuel heap).heap = some m ∧
          clock (i + (executeGo clock i fuel heap).executed.length) < m.date ∧
          dl = m.date - clock (i + (executeGo clock i fuel heap).executed.length)) ∧
      (∀ j (hj : j < (executeGo clock i fuel heap).executed.length),
        ((executeGo clock i fuel heap).executed.get ⟨j, hj⟩).date ≤ clock (i + j)) ∧
      (∀ t ∈ (executeGo clock i fuel heap).executed, t ∈ heap) ∧
      (∀ t ∈ (executeGo clock i fuel heap).heap, t ∈ heap) ∧
      List.Pairwise (fun a b => a.date ≤ b.date)
        (executeGo clock i fuel heap).executed := by
  intro fuel
  induction fuel with
  | zero =>
    intro i heap hlen
    have hnil : heap = [] := List.length_eq_zero.mp (Nat.le_zero.mp hlen)
    subst hnil
    rw [executeGo_zero]
    refine ⟨by simp, by simp, by simp, by simp, by simp, by simp⟩
  | succ fuel ih =>
    intro i heap hlen
    cases hpk : Heap.peek heap with
    | none =>
      have hnil : heap = [] := by
        by_contra hne
        have h1 := (Heap.peek_isSome_iff heap).mpr hne
        rw [hpk] at h1
        simp at h1
      rw [executeGo_empty clock i fuel hpk]
      subst hnil
      refine ⟨by simp, by simp, by simp, by simp, by simp, by simp⟩
    | some sched =>
      by_cases hlt : clock i < sched.date
      · rw [executeGo_wait clock i fuel hpk hlt]
        have hne : heap ≠ [] := by
          intro hnil
          rw [hnil] at hpk
          simp [Heap.peek] at hpk
        refine ⟨by simp [hne], ?_, by simp, by simp, by simp, by simp⟩
        intro dl hdl
        simp at hdl
        refine ⟨sched, hpk, by simpa using hlt, by simp [hdl]⟩
      · cases hpop : Heap.pop heap with
        | none =>
          exfalso
          have hnil : heap = [] := (Heap.pop_none_iff heap).mp hpop
          rw [hnil] at hpk
          simp [Heap.peek] at hpk
        | some p =>
          obtain ⟨m, rest⟩ := p
          have hm : sched = m := by
            have h1 := Heap.pop_fst_eq_peek hpop
            rw [hpk] at h1
            simpa using h1
          subst hm
          have hdue : sched.date ≤ clock i := not_lt.mp hlt
          have hrl : rest.length ≤ fuel := by
            have h1 := Heap.pop_length hpop
            omega
          have ihr := ih (i + 1) rest hrl
          rw [executeGo_pop clock i fuel hpk hlt hpop]
          refine ⟨ihr.1, ?_, ?_, ?_, ?_, ?_⟩
          · intro dl hdl
            simp only at hdl
            obtain ⟨m', hm1, hm2, hm3⟩ := ihr.2.1 dl hdl
            refine ⟨m', hm1, ?_, ?_⟩
            · have he : i + (List.length
                  (sched :: (executeGo clock (i + 1) fuel rest).executed)) =
                  i + 1 + (executeGo clock (i + 1) fuel rest).executed.length := by
                simp
                omega
              rw [he]
              exact hm2
            · have he : i + (List.length
                  (sched :: (executeGo clock (i + 1) fuel rest).executed)) =
                  i + 1 + (executeGo clock (i + 1) fuel rest).executed.length := by
                simp
                omega
              rw [he]
              exact hm3
          · intro j hj
            cases j with
            | zero => simpa using hdue
            | succ j =>
              simp only [List.length_cons] at hj
              have hj' : j < (executeGo clock (i + 1) fuel rest).executed.length :=
                Nat.lt_of_succ_lt_succ hj
              have h1 := ihr.2.2.1 j hj'
              have he : i + 1 + j = i + (j + 1) := by omega
              rw [he] at h1
              simpa using h1
          · intro t ht
            rcases List.mem_cons.mp ht with h1 | h1
            · rw [h1]
              exact Heap.peek_mem hpk
            · exact Heap.pop_subset hpop t (ihr.2.2.2.1 t h1)
          · intro t ht
            exact Heap.pop_subset hpop t (ihr.2.2.2.2.1 t ht)
          · refine List.pairwise_cons.mpr ⟨?_, ihr.2.2.2.2.2⟩
            intro t ht
            have h1 : t ∈ heap := Heap.pop_subset hpop t (ihr.2.2.2.1 t ht)
            exact Heap.peek_min hpk t h1

/-- **C2**: in every execute step, the loop repeatedly pops the earliest
item (so invocations happen in nondecreasing date order, each callable run
before the next item is considered), and the repetition stops exactly when
the queue is empty (recording no deadline) or the earliest remaining item's
date is in the future (recording `date - now` for the last clock reading as
the next deadline). -/
theorem C2_execute_until_empty_or_future {α : Type} (clock : Nat → Int) (i : Nat)
    (heap : List (Schedule α)) :
    ((execute clock i heap).delay = none ↔ (execute clock i heap).heap = []) ∧
    (∀ dl, (execute clock i heap).delay = some dl →
      ∃ m, Heap.peek (execute clock i heap).heap = some m ∧
        clock (i + (execute clock i heap).executed.length) < m.date ∧
        dl = m.date - clock (i + (execute clock i heap).executed.length)) ∧
    List.Pairwise (fun a b => a.date ≤ b.date) (execute clock i heap).executed := by
  have h := executeGo_spec clock heap.length i heap (le_refl _)
  exact ⟨h.1, h.2.1, h.2.2.2.2.2⟩

/-- C2 on concrete queues: with the clock at 10, a queue holding dates 5 and
20 stops with a future item left (nonempty, so some deadline), and an empty
queue stops recording no deadline. -/
theorem C2_witness :
    (execute (fun _ => (10 : Int)) 0 [(⟨5, 0⟩ : Schedule Nat), ⟨20, 1⟩]).delay ≠ none ∧
    (execute (fun _ => (10 : Int)) 0 ([] : List (Schedule Nat))).delay = none := by
  constructor
  · intro hd
    have h := (C2_execute_until_empty_or_future (fun _ => (10 : Int)) 0
      [(⟨5, 0⟩ : Schedule Nat), ⟨20, 1⟩]).1.mp hd
    revert h
    decide
  · exact (C2_execute_until_empty_or_future (fun _ => (10 : Int)) 0
      ([] : List (Schedule Nat))).1.mpr rfl

/-- **C3**: no callable runs early — the `j`-th invoked callable was invoked
only after the loop observed the clock reading of its own iteration, a value
greater than or equal to the item's date. -/
theorem C3_no_early_execution {α : Type} (clock : Nat → Int) (i : Nat)
    (heap : List (Schedule α)) :
    ∀ j (hj : j < (execute clock i heap).executed.length),
      ((execute clock i heap).executed.get ⟨j, hj⟩).date ≤ clock (i + j) := by
  have h := executeGo_spec clock heap.length i heap (le_refl _)
  exact h.2.2.1

/-- C3 at a concrete input: the date-5 item is executed at clock reading 10,
which is not earlier than 5. -/
theorem C3_witness :
    ((execute (fun _ => (10 : Int)) 0 [(⟨5, 0⟩ : Schedule Nat)]).executed.get
      ⟨0, by decide⟩).date ≤ 10 := by
  have h := C3_no_early_execution (fun _ => (10 : Int)) 0
    [(⟨5, 0⟩ : Schedule Nat)] 0 (by decide)
  simpa using h

/-! ## The drain phase and the outer loop of `Scheduler::run`

`for msg in lock.drain(..)`: messages are processed in order; an
`Op::Schedule` is pushed onto the heap, an `Op::Stop` makes `run` return at
once — the `Drain` iterator then drops the remaining messages and the
scheduler (heap included) is dropped, so nothing else ever runs.  The outer
`loop` is modelled over a finite trace: `batches` lists the wait-channel
content found at each successive drain; the sleep phase is abstracted into
moving to the next batch. -/

def drain {α : Type} : List (Op α) → List (Schedule α) → Bool × List (Schedule α)
  | [], heap => (false, heap)
  | Op.Stop :: _, heap => (true, heap)
  | Op.Schedule sched :: rest, heap => drain rest (Heap.push sched heap)

/-- All items executed by `Scheduler::run` along the trace, in invocation
order; drain finding a `Stop` returns immediately. -/
def runLoop {α : Type} (clock : Nat → Int) :
    List (List (Op α)) → Nat → List (Schedule α) → List (Schedule α)
  | [], _, _ => []
  | batch :: rest, i, heap =>
    if (drain batch heap).1 then []
    else
      (execute clock i (drain batch heap).2).executed ++
        runLoop clock rest (i + (execute clock i (drain batch heap).2).executed.length + 1)
          (execute clock i (drain batch heap).2).heap

theorem drain_no_stop {α : Type} :
    ∀ {pre : List (Op α)}, Op.Stop ∉ pre →
      ∀ (ms : List (Op α)) (heap : List (Schedule α)),
        drain (pre ++ ms) heap = drain ms (drain pre heap).2 ∧
        (drain pre heap).1 = false := by
  intro pre
  induction pre with
  | nil => intro _ ms heap; exact ⟨rfl, rfl⟩
  | cons op rest ih =>
    intro hpre ms heap
    have hop : op ≠ Op.Stop := fun he => hpre (he ▸ List.mem_cons_self op rest)
    have hrest : Op.Stop ∉ rest := fun hm => hpre (List.mem_cons_of_mem op hm)
    cases op with
    | Stop => exact absurd rfl hop
    | Schedule sched =>
      simp only [List.cons_append, drain]
      exact ih hrest ms (Heap.push sched heap)

theorem drain_preserves {α : Type} :
    ∀ {ops : List (Op α)}, Op.Stop ∉ ops →
      ∀ (heap : List (Schedule α)) (t : Schedule α), t ∈ heap → t ∈ (drain ops heap).2 := by
  intro ops
  induction ops with
  | nil => intro _ heap t ht; exact ht
  | cons op rest ih =>
    intro hops heap t ht
    have hop : op ≠ Op.Stop := fun he => hops (he ▸ List.mem_cons_self op rest)
    have hrest : Op.Stop ∉ rest := fun hm => hops (List.mem_cons_of_mem op hm)
    cases op with
    | Stop => exact absurd rfl hop
    | Schedule sched =>
      simp only [drain]
      exact ih hrest (Heap.push sched heap) t (List.mem_cons_of_mem _ ht)

theorem drain_pushes {α : Type} :
    ∀ {pre : List (Op α)}, Op.Stop ∉ pre →
      ∀ (heap : List (Schedule α)) (s : Schedule α),
        Op.Schedule s ∈ pre → s ∈ (drain pre heap).2 := by
  intro pre
  induction pre with
  | nil => intro _ heap s hs; simp at hs
  | cons op rest ih =>
    intro hpre heap s hs
    have hrest : Op.Stop ∉ rest := fun hm => hpre (List.mem_cons_of_mem op hm)
    cases op with
    | Stop => exact absurd (List.mem_cons_self _ _) hpre
    | Schedule sched =>
      simp only [drain]
      rcases List.mem_cons.mp hs with h1 | h1
      · have hss : s = sched := by
          simpa using h1
        subst hss
        exact drain_preserves hrest (Heap.push s heap) s (List.mem_cons_self _ _)
      · exact ih hrest (Heap.push sched heap) s h1

/-- **C4**: when the drain phase meets a `Stop`, `run` returns immediately:
along the whole trace no callable is executed afterwards (items still queued
— due or not — never run), the operations drained after the `Stop` are
discarded without being pushed (the drain result carries only the pushes of
the prefix), and every `Submit` observed before the `Stop` was pushed onto
the queue. -/
theorem C4_stop_discards_and_returns {α : Type} (clock : Nat → Int) (i : Nat)
    (pre post : List (Op α)) (batches : List (List (Op α)))
    (heap : List (Schedule α)) (hpre : Op.Stop ∉ pre) :
    drain (pre ++ Op.Stop :: post) heap = (true, (drain pre heap).2) ∧
    (∀ s, Op.Schedule s ∈ pre → s ∈ (drain pre heap).2) ∧
    runLoop clock ((pre ++ Op.Stop :: post) :: batches) i heap = [] := by
  have hd := drain_no_stop hpre (Op.Stop :: post) heap
  have hstop : drain (pre ++ Op.Stop :: post) heap = (true, (drain pre heap).2) := by
    rw [hd.1]
    rfl
  refine ⟨hstop, fun s hs => drain_pushes hpre heap s hs, ?_⟩
  simp only [runLoop, hstop]
  simp

/-- C4 at a concrete trace: a batch `[Submit(date 5), Stop, Submit(date 7)]`
makes the whole run execute nothing, and the date-5 item was pushed before
the `Stop` was seen. -/
theorem C4_witness :
    runLoop (fun _ => (10 : Int))
      [[Op.Schedule (⟨5, 0⟩ : Schedule Nat), Op.Stop, Op.Schedule ⟨7, 1⟩],
       [Op.Schedule ⟨3, 2⟩]] 0 [] = [] ∧
    (⟨5, 0⟩ : Schedule Nat) ∈ (drain [Op.Schedule (⟨5, 0⟩ : Schedule Nat)] []).2 := by
  have h := C4_stop_discards_and_returns (fun _ => (10 : Int)) 0
    [Op.Schedule (⟨5, 0⟩ : Schedule Nat)] [Op.Schedule ⟨7, 1⟩]
    [[Op.Schedule ⟨3, 2⟩]] [] (by decide)
  exact ⟨h.2.2, h.2.1 ⟨5, 0⟩ (by decide)⟩

/-! ## The public scheduling calls (`Timer`) -/

/-- `Timer::schedule_with_date`: the `Op::Schedule` message built from the
date and callback (the channel send around it is modelled by `sendOp`
below). -/
def schedule_with_date {α : Type} (date : Int) (cb : α) : Op α :=
  Op.Schedule ⟨date, cb⟩

/-- `Timer::schedule_with_delay`: `self.schedule_with_date(UTC::now() + delay, cb)`,
where `now` is the clock reading taken at the call. -/
def schedule_with_delay {α : Type} (now delay : Int) (cb : α) : Op α :=
  schedule_with_date (now + delay) cb

/-- A singleton queue whose item is already due is fully executed by the
execute phase of the very iteration that sees it. -/
theorem execute_singleton_due {α : Type} (clock : Nat → Int) (i : Nat)
    (s : Schedule α) (hdue : s.date ≤ clock i) :
    execute clock i [s] = ⟨[s], [], none⟩ := by
  have hpk : Heap.peek [s] = some s := rfl
  have hpop : Heap.pop [s] = some (s, []) := rfl
  have h1 := executeGo_pop clock i 0 hpk (not_lt.mpr hdue) hpop
  exact h1

/-- **C5**: `schedule_with_delay(delay, cb)` sends exactly the operation
`schedule_with_date(now + delay, cb)` sends, `now` being the clock reading
at the call; a non-positive delay (equivalently, a past or present date) is
not an error: the resulting item is due at every later clock reading, so the
next execute phase that finds it runs it at once. -/
theorem C5_delay_is_date_plus_now {α : Type} (now delay : Int) (cb : α) :
    schedule_with_delay now delay cb = schedule_with_date (now + delay) cb ∧
    (delay ≤ 0 → ∀ (clock : Nat → Int) (i : Nat), now ≤ clock i →
      execute clock i [⟨now + delay, cb⟩] = ⟨[⟨now + delay, cb⟩], [], none⟩) := by
  refine ⟨rfl, ?_⟩
  intro hneg clock i hclock
  exact execute_singleton_due clock i ⟨now + delay, cb⟩ (by simp; omega)

/-- C5 at concrete values: delay −3 at clock 100 builds the same operation
as an absolute date of 97, and the item is executed by the next execute
phase. -/
theorem C5_witness :
    schedule_with_delay 100 (-3) (0 : Nat) = schedule_with_date 97 0 ∧
    execute (fun _ => (100 : Int)) 0 [(⟨97, 0⟩ : Schedule Nat)] =
      ⟨[⟨97, 0⟩], [], none⟩ := by
  have h := C5_delay_is_date_plus_now 100 (-3) (0 : Nat)
  constructor
  · have h1 := h.1
    norm_num at h1
    exact h1
  · have h2 := h.2 (by norm_num) (fun _ => (100 : Int)) 0 (by norm_num)
    norm_num at h2
    exact h2

/-! ## The Communication (intake relay) thread

The first thread spawned by `Timer::with_capacity`: `for msg in rx.iter()`,
taking the wait-channel lock for each message.  A `Schedule` is pushed onto
the pending vector and the condvar notified; a `Stop` clears the vector,
pushes a single `Stop`, notifies, and returns from the closure.  We record
the sequence of actions the thread performs on the wait channel. -/

inductive RelayAction (α : Type) where
  | push (op : Op α)
  | clear
  | signal
  | quit
deriving Repr, DecidableEq

/-- The actions the relay thread performs for a received message sequence. -/
def relayActions {α : Type} : List (Op α) → List (RelayAction α)
  | [] => []
  | Op.Schedule sched :: rest =>
      RelayAction.push (Op.Schedule sched) :: RelayAction.signal :: relayActions rest
  | Op.Stop :: _ =>
      [RelayAction.clear, RelayAction.push Op.Stop, RelayAction.signal,
       RelayAction.quit]

/-- Effect of the relay's actions on the wait channel's pending vector
(`Vec::push` appends at the end, `Vec::clear` empties; `quit` ends the
thread). -/
def applyActions {α : Type} : List (Op α) → List (RelayAction α) → List (Op α)
  | vec, [] => vec
  | vec, RelayAction.push op :: rest => applyActions (vec ++ [op]) rest
  | _, RelayAction.clear :: rest => applyActions [] rest
  | vec, RelayAction.signal :: rest => applyActions vec rest
  | vec, RelayAction.quit :: _ => vec

/-- **C6**: when the relay receives `Stop` it clears whatever is buffered,
leaves exactly one pending operation (`Stop`), and exits — the messages
behind the `Stop` never influence its actions; and every `Schedule` received
before the `Stop` is appended and the condvar signalled right after the
append. -/
theorem C6_relay_stop {α : Type} (pre post vec : List (Op α))
    (hpre : Op.Stop ∉ pre) :
    applyActions vec (relayActions (pre ++ Op.Stop :: post)) = [Op.Stop] ∧
    relayActions (pre ++ Op.Stop :: post) = relayActions (pre ++ [Op.Stop]) ∧
    (relayActions (pre ++ Op.Stop :: post)).getLast? = some (RelayAction.quit) ∧
    (∀ s, Op.Schedule s ∈ pre → ∃ k,
      (relayActions (pre ++ Op.Stop :: post)).get? k =
        some (RelayAction.push (Op.Schedule s)) ∧
      (relayActions (pre ++ Op.Stop :: post)).get? (k + 1) =
        some (RelayAction.signal)) := by
  induction pre generalizing vec with
  | nil =>
    refine ⟨rfl, rfl, rfl, ?_⟩
    intro s hs
    simp at hs
  | cons op rest ih =>
    have hop : op ≠ Op.Stop := fun he => hpre (he ▸ List.mem_cons_self op rest)
    have hrest : Op.Stop ∉ rest := fun hm => hpre (List.mem_cons_of_mem op hm)
    cases op with
    | Stop => exact absurd rfl hop
    | Schedule sched =>
      have ihr := ih (vec ++ [Op.Schedule sched]) hrest
      have hne : relayActions (rest ++ Op.Stop :: post) ≠ [] := by
        intro hnil
        have h1 := ihr.2.2.1
        rw [hnil] at h1
        simp at h1
      obtain ⟨a0, atail, ha⟩ := List.exists_cons_of_ne_nil hne
      refine ⟨?_, ?_, ?_, ?_⟩
      · simp only [List.cons_append, relayActions, applyActions, List.append_eq]
        exact ihr.1
      · simp only [List.cons_append, relayActions, List.append_eq]
        rw [ihr.2.1]
      · simp only [List.cons_append, relayActions, List.append_eq]
        rw [ha, List.getLast?_cons_cons, List.getLast?_cons_cons, ← ha]
        exact ihr.2.2.1
      · intro s hs
        rcases List.mem_cons.mp hs with h1 | h1
        · refine ⟨0, ?_, ?_⟩
          · simp only [List.cons_append, relayActions, List.append_eq]
            have hss : s = sched := by simpa using h1
            rw [hss]
            rfl
          · simp only [List.cons_append, relayActions, List.append_eq]
            rfl
        · obtain ⟨k, hk1, hk2⟩ := ihr.2.2.2 s h1
          refine ⟨k + 2, ?_, ?_⟩
          · simp only [List.cons_append, relayActions, List.append_eq]
            simpa using hk1
          · simp only [List.cons_append, relayActions, List.append_eq]
            simpa using hk2

/-- C6 at a concrete message sequence: a buffered submission and one
received before `Stop` are all wiped, leaving exactly `[Stop]`. -/
theorem C6_witness :
    applyActions [Op.Schedule (⟨1, 2⟩ : Schedule Nat)]
      (relayActions
        [Op.Schedule (⟨5, 0⟩ : Schedule Nat), Op.Stop, Op.Schedule ⟨7, 1⟩]) =
      [Op.Stop] := by
  have h := C6_relay_stop [Op.Schedule (⟨5, 0⟩ : Schedule Nat)]
    [Op.Schedule ⟨7, 1⟩] [Op.Schedule ⟨1, 2⟩] (by decide)
  simpa using h.1

/-! ## The sleep phase of `Scheduler::run`

`match delay { None => condvar.wait(lock), Some(delay) => … wait_timeout }`.
The chrono duration is `Int` nanoseconds; `std::time::Duration::new(sec, ns)`
is a pair of a `u64` second count and a `u32` nanosecond count (numerals
below: `2^63 = 9223372036854775808`, `2^64 = 18446744073709551616`,
`2^32 = 4294967296`). -/

/-- `chrono::Duration::num_seconds`: whole seconds, truncated toward zero
(Rust integer division on the total nanoseconds). -/
def num_seconds (ns : Int) : Int := Int.tdiv ns 1000000000

/-- `chrono::Duration::num_nanoseconds`: `Some` of the total nanoseconds
unless they overflow an `i64`. -/
def num_nanoseconds (ns : Int) : Option Int :=
  if -9223372036854775808 ≤ ns ∧ ns ≤ 9223372036854775807 then some ns else none

/-- Rust `as u64` on an `i64` (wrapping reinterpretation). -/
def castU64 (x : Int) : Nat := (x % 18446744073709551616).toNat

/-- Rust `as u32` on an `i64` (wrapping truncation to the low 32 bits). -/
def castU32 (x : Int) : Nat := (x % 4294967296).toNat

/-- The `Some(delay)` arm: `sec = delay.num_seconds(); ns = (delay -
Duration::seconds(sec)).num_nanoseconds().unwrap(); Duration::new(sec as
u64, ns as u32)`; the outer `none` models the `unwrap` panicking. -/
def sleepDuration (delayNs : Int) : Option (Nat × Nat) :=
  match num_nanoseconds (delayNs - num_seconds delayNs * 1000000000) with
  | none => none
  | some ns => some (castU64 (num_seconds delayNs), castU32 ns)

inductive SleepAction where
  | wait
  | waitTimeout (secs : Nat) (nanos : Nat)
deriving Repr, DecidableEq

/-- The sleep phase: block indefinitely when no deadline was recorded,
otherwise block with the converted timeout. -/
def sleep (delay : Option Int) : Option SleepAction :=
  match delay with
  | none => some SleepAction.wait
  | some d =>
    match sleepDuration d with
    | none => none
    | some sn => some (SleepAction.waitTimeout sn.1 sn.2)

/-- Arithmetic facts about the conversion for a strictly positive delay no
larger than chrono's maximum duration (`i64::MAX` milliseconds). -/
theorem sleep_arith (d : Int) (hpos : 0 < d)
    (hbound : d ≤ 9223372036854775807 * 1000000) :
    0 ≤ num_seconds d ∧ num_seconds d < 18446744073709551616 ∧
    0 ≤ d - num_seconds d * 1000000000 ∧
    d - num_seconds d * 1000000000 < 1000000000 := by
  unfold num_seconds
  rw [Int.tdiv_eq_ediv (by omega) (by norm_num)]
  refine ⟨?_, ?_, ?_, ?_⟩ <;> omega

/-- **C7**: with no recorded deadline the loop blocks indefinitely on the
condition variable; with a recorded (strictly positive, chrono-representable)
delay it blocks with a timeout whose seconds/nanoseconds decomposition is
exactly the delay — the conversion loses nothing. -/
theorem C7_sleep_indefinite_or_exact_timeout (d : Int) (hpos : 0 < d)
    (hbound : d ≤ 9223372036854775807 * 1000000) :
    sleep none = some SleepAction.wait ∧
    ∃ s n, sleep (some d) = some (SleepAction.waitTimeout s n) ∧
      n < 1000000000 ∧ (s : Int) * 1000000000 + (n : Int) = d := by
  have harith := sleep_arith d hpos hbound
  have hnn : num_nanoseconds (d - num_seconds d * 1000000000) =
      some (d - num_seconds d * 1000000000) := by
    unfold num_nanoseconds
    rw [if_pos]
    constructor <;> omega
  have hsd : sleepDuration d =
      some (castU64 (num_seconds d), castU32 (d - num_seconds d * 1000000000)) := by
    unfold sleepDuration
    rw [hnn]
  refine ⟨rfl, castU64 (num_seconds d),
    castU32 (d - num_seconds d * 1000000000), ?_, ?_, ?_⟩
  · simp only [sleep, hsd]
  · unfold castU32
    omega
  · unfold castU64 castU32
    omega

/-- C7 at a concrete delay of 2.5 seconds: the loop sleeps with a timeout of
2 seconds and 500000000 nanoseconds. -/
theorem C7_witness :
    sleep none = some SleepAction.wait ∧
    sleep (some 2500000000) = some (SleepAction.waitTimeout 2 500000000) := by
  have h := C7_sleep_indefinite_or_exact_timeout 2500000000 (by norm_num)
    (by norm_num)
  obtain ⟨hw, s, n, hs, hn, heq⟩ := h
  refine ⟨hw, ?_⟩
  have hc : sleep (some 2500000000) =
      some (SleepAction.waitTimeout 2 500000000) := by decide
  exact hc

/-! ## Panic-aware run (`(sched.cb)()` is not wrapped in any catch)

Here the callable payload is `Bool`, `true` meaning the invocation panics.
A panicking callable unwinds straight out of `run` (the code has no
`catch_unwind`): nothing further is popped, the loop never reaches the
drain phase again, and later wait-channel batches are never consumed. -/

inductive ExecEnd where
  | normal (delay : Option Int)
  | panicked
deriving Repr, DecidableEq

structure ExecPResult where
  executed : List (Schedule Bool)
  heap : List (Schedule Bool)
  outcome : ExecEnd
deriving Repr, DecidableEq

/-- The execute phase with panic-aware callables: identical to `executeGo`
except that invoking a panicking callable ends everything at once. -/
def executePGo (clock : Nat → Int) : Nat → Nat → List (Schedule Bool) → ExecPResult
  | _, 0, heap => ⟨[], heap, ExecEnd.normal none⟩
  | i, fuel + 1, heap =>
    match Heap.peek heap with
    | none => ⟨[], heap, ExecEnd.normal none⟩
    | some sched =>
      if clock i < sched.date then
        ⟨[], heap, ExecEnd.normal (some (sched.date - clock i))⟩
      else
        match Heap.pop heap with
        | none => ⟨[], heap, ExecEnd.normal none⟩
        | some (m, rest) =>
          if m.cb then ⟨[m], rest, ExecEnd.panicked⟩
          else
            ⟨m :: (executePGo clock (i + 1) fuel rest).executed,
             (executePGo clock (i + 1) fuel rest).heap,
             (executePGo clock (i + 1) fuel rest).outcome⟩

def executeP (clock : Nat → Int) (i : Nat) (heap : List (Schedule Bool)) :
    ExecPResult :=
  executePGo clock i heap.length heap

/-- The whole `run` over a finite trace with panic-aware callables: the
items executed in order, and whether the thread died from a panic. A panic
ends the recursion immediately — the remaining batches are never drained. -/
def runLoopP (clock : Nat → Int) :
    List (List (Op Bool)) → Nat → List (Schedule Bool) →
      List (Schedule Bool) × Bool
  | [], _, _ => ([], false)
  | batch :: rest, i, heap =>
    if (drain batch heap).1 then ([], false)
    else
      match (executeP clock i (drain batch heap).2).outcome with
      | ExecEnd.panicked => ((executeP clock i (drain batch heap).2).executed, true)
      | ExecEnd.normal _ =>
        ((executeP clock i (drain batch heap).2).executed ++
            (runLoopP clock rest
              (i + (executeP clock i (drain batch heap).2).executed.length + 1)
              (executeP clock i (drain batch heap).2).heap).1,
         (runLoopP clock rest
            (i + (executeP clock i (drain batch heap).2).executed.length + 1)
            (executeP clock i (drain batch heap).2).heap).2)

/-- If the execute phase panicked, the panicking callable is the last thing
that ever ran. -/
theorem executePGo_panicked_last (clock : Nat → Int) :
    ∀ (fuel i : Nat) (heap : List (Schedule Bool)),
      (executePGo clock i fuel heap).outcome = ExecEnd.panicked →
      ∃ pre m, (executePGo clock i fuel heap).executed = pre ++ [m] ∧
        m.cb = true := by
  intro fuel
  induction fuel with
  | zero =>
    intro i heap hp
    simp [executePGo] at hp
  | succ fuel ih =>
    intro i heap hp
    simp only [executePGo] at hp ⊢
    cases hpk : Heap.peek heap with
    | none =>
      simp only [hpk] at hp
      simp at hp
    | some sched =>
      simp only [hpk] at hp ⊢
      by_cases hlt : clock i < sched.date
      · rw [if_pos hlt] at hp
        simp at hp
      · rw [if_neg hlt] at hp
        rw [if_neg hlt]
        cases hpop : Heap.pop heap with
        | none =>
          simp only [hpop] at hp
          simp at hp
        | some p =>
          obtain ⟨m, rest⟩ := p
          simp only [hpop] at hp ⊢
          by_cases hcb : m.cb
          · rw [if_pos hcb] at hp
            rw [if_pos hcb]
            exact ⟨[], m, rfl, hcb⟩
          · rw [if_neg hcb] at hp
            rw [if_neg hcb]
            obtain ⟨pre, m', he, hm'⟩ := ih (i + 1) rest hp
            exact ⟨m :: pre, m', by simp [he], hm'⟩

/-- **C8**: a panicking callable is not caught — the run terminates right
after that callable (it is the last executed item), duly-queued items after
it never run, and the whole remaining trace of submissions is never drained
by anyone: the result does not depend on the batches behind the fatal one
(the timer is permanently inert). -/
theorem C8_panic_propagates (clock : Nat → Int) (batch : List (Op Bool))
    (batches : List (List (Op Bool))) (i : Nat) (heap : List (Schedule Bool))
    (hnostop : (drain batch heap).1 = false)
    (hpanic : (executeP clock i (drain batch heap).2).outcome = ExecEnd.panicked) :
    runLoopP clock (batch :: batches) i heap =
      ((executeP clock i (drain batch heap).2).executed, true) ∧
    (∀ batches', runLoopP clock (batch :: batches') i heap =
      runLoopP clock (batch :: batches) i heap) ∧
    (∃ pre m, (executeP clock i (drain batch heap).2).executed = pre ++ [m] ∧
      m.cb = true) := by
  have hrun : ∀ (bs : List (List (Op Bool))),
      runLoopP clock (batch :: bs) i heap =
        ((executeP clock i (drain batch heap).2).executed, true) := by
    intro bs
    simp only [runLoopP, hnostop, hpanic]
    simp
  refine ⟨hrun batches, ?_, ?_⟩
  · intro batches'
    rw [hrun batches', hrun batches]
  · exact executePGo_panicked_last clock (drain batch heap).2.length i
      (drain batch heap).2 hpanic

/-- C8 at a concrete trace: the due item whose callable panics is executed,
then nothing else ever is — the second batch is never drained. -/
theorem C8_witness :
    runLoopP (fun _ => (10 : Int))
      [[Op.Schedule ⟨5, true⟩], [Op.Schedule ⟨1, false⟩]] 0 [] =
      ([⟨5, true⟩], true) := by
  have h := C8_panic_propagates (fun _ => (10 : Int)) [Op.Schedule ⟨5, true⟩]
    [[Op.Schedule ⟨1, false⟩]] 0 [] (by decide) (by decide)
  rw [h.1]
  decide

/-! ## The channel send and its `unwrap` (`Timer::schedule_with_date`,
`impl Drop for Timer`)

`self.tx.send(...)` fails exactly when the receiving (Communication) thread
is gone — i.e. after the pipeline has stopped; `SendError` returns the
message.  The `.unwrap()` turns that into a panic in the calling thread. -/

def sendOp {α : Type} (receiverAlive : Bool) (op : Op α) : Except (Op α) Unit :=
  if receiverAlive then Except.ok () else Except.error op

/-- `Timer::schedule_with_date` including the send:
`self.tx.send(Op::Schedule(Schedule { date, cb })).unwrap()`; an
`Except.error` is the unwrap panic propagating to the caller. -/
def scheduleSend {α : Type} (receiverAlive : Bool) (date : Int) (cb : α) :
    Except (Op α) Unit :=
  sendOp receiverAlive (schedule_with_date date cb)

/-- **C9**: while the background threads are alive a submission returns at
once with a success and never fails; once the pipeline has stopped (the
receiver is gone) the submission call itself fails, with the failure handed
to the caller — there is no internal retry, the error value is final and
carries the rejected operation. -/
theorem C9_submission_failure {α : Type} (date : Int) (cb : α) :
    scheduleSend true date cb = Except.ok () ∧
    scheduleSend false date cb = Except.error (schedule_with_date date cb) :=
  ⟨rfl, rfl⟩

/-- **C10**: the two unwraps in `Scheduler::run` are unreachable error
branches — whenever `peek` just returned an item, `pop` returns `Some` (of
that same item); and for the strictly positive delay reaching the sleep
conversion, the sub-second remainder lies in `[0, 1e9)`, so
`num_nanoseconds` is `Some` and the `as u64` / `as u32` casts change
neither the seconds nor the nanoseconds. -/
theorem C10_internal_unwraps_safe {α : Type} (h : List (Schedule α)) (d : Int)
    (hpos : 0 < d) (hbound : d ≤ 9223372036854775807 * 1000000) :
    ((Heap.peek h).isSome →
      ∃ m rest, Heap.pop h = some (m, rest) ∧ Heap.peek h = some m) ∧
    (0 ≤ d - num_seconds d * 1000000000 ∧
      d - num_seconds d * 1000000000 < 1000000000) ∧
    num_nanoseconds (d - num_seconds d * 1000000000) =
      some (d - num_seconds d * 1000000000) ∧
    (castU64 (num_seconds d) : Int) = num_seconds d ∧
    (castU32 (d - num_seconds d * 1000000000) : Int) =
      d - num_seconds d * 1000000000 := by
  have harith := sleep_arith d hpos hbound
  refine ⟨?_, ⟨harith.2.2.1, harith.2.2.2⟩, ?_, ?_, ?_⟩
  · intro hsome
    rcases Heap.pop_peek h with ⟨hpk, _⟩ | ⟨m, r, hpk, hpp⟩
    · rw [hpk] at hsome
      simp at hsome
    · exact ⟨m, r, hpp, hpk⟩
  · unfold num_nanoseconds
    rw [if_pos]
    constructor <;> omega
  · unfold castU64
    omega
  · unfold castU32
    omega

/-- C10 at concrete inputs: a nonempty heap pops successfully, and the 1.5 s
delay splits into an exactly representable 1 s + 500000000 ns. -/
theorem C10_witness :
    (Heap.pop [(⟨3, 0⟩ : Schedule Nat)]).isSome ∧
    num_nanoseconds (1500000000 - num_seconds 1500000000 * 1000000000) =
      some 500000000 := by
  have h := C10_internal_unwraps_safe [(⟨3, 0⟩ : Schedule Nat)] 1500000000
    (by norm_num) (by norm_num)
  obtain ⟨m, rest, hpp, _⟩ := h.1 (by decide)
  constructor
  · rw [hpp]
    rfl
  · have h4 := h.2.2.1
    have he : (1500000000 : Int) - num_seconds 1500000000 * 1000000000 =
        500000000 := by decide
    rw [he] at h4
    exact h4
